import Mathlib

/-!
Shallow embedding of the NZ spelling converter service
(files src/unnamed/part_002 and src/src/server.js of the repository).

Conventions of the embedding:
* JavaScript strings are modelled as `List Char`.  All string data occurring
  in the repository and in the claims is ASCII, so the JavaScript character
  case operations `toLowerCase`/`toUpperCase` are modelled by
  `Char.toLower`/`Char.toUpper` (which agree with JavaScript on ASCII).
* The two spell-check dictionaries (capability `has(word, ignoreCase)`)
  are modelled as `List (List Char)` queried with `List.contains` on the
  lowercased token, exactly how the source queries them.
* `String.prototype.replace` with a global regex is modelled by an explicit
  left-to-right scan.  The scans are written with an explicit fuel argument
  (structural recursion) so that every definition is kernel-computable;
  each wrapper fixes the fuel to the length of the scanned list, which is
  always sufficient because every step consumes at least one character.
* `escapeRegExp` turns a phrase into a regex that matches it literally;
  the embedding therefore matches phrases literally and needs no separate
  `escapeRegExp` definition.
-/

/-- Lowercase every character (JavaScript `toLowerCase` on ASCII data). -/
def toLowerL (s : List Char) : List Char := s.map Char.toLower

/-- Uppercase every character (JavaScript `toUpperCase` on ASCII data). -/
def toUpperL (s : List Char) : List Char := s.map Char.toUpper

/-- ASCII letter, the character class `[A-Za-z]` of the token regex in
`applyIseConversions`. -/
def isAsciiLetter (c : Char) : Bool := ('A' ≤ c && c ≤ 'Z') || ('a' ≤ c && c ≤ 'z')

/-- JavaScript regex word character `\w`, i.e. `[A-Za-z0-9_]`; used by the
`\b` word-boundary assertion. -/
def isWordChar (c : Char) : Bool := isAsciiLetter c || c.isDigit || c == '_'

/-- Case-insensitive character comparison, the `i` regex flag (ASCII). -/
def lcEq (a b : Char) : Bool := a.toLower == b.toLower

/-! ## Currency protection (`protectCurrencySymbols` / `restoreCurrencySymbols`) -/

/-- The sentinel token `[[DOLLAR]]` used by `protectCurrencySymbols`. -/
def sentinel : List Char := ['[', '[', 'D', 'O', 'L', 'L', 'A', 'R', ']', ']']

/-- Embedding of `protectCurrencySymbols`: `text.replace(/\$/g, '[[DOLLAR]]')`,
replacing every dollar sign by the sentinel. -/
def protectCurrencySymbols : List Char → List Char
  | [] => []
  | c :: t => (if c = '$' then sentinel else [c]) ++ protectCurrencySymbols t

/-- Fuelled scan for `restoreCurrencySymbols`: at each position, if the
sentinel starts here, emit `'$'` (the replacement string `'$$'` denotes a
single literal dollar) and resume after it, otherwise copy one character. -/
def restoreF : Nat → List Char → List Char
  | 0, s => s
  | _ + 1, [] => []
  | fuel + 1, c :: t =>
    if List.isPrefixOf sentinel (c :: t) then '$' :: restoreF fuel (t.drop 9)
    else c :: restoreF fuel t

/-- Embedding of `restoreCurrencySymbols`:
`text.replace(new RegExp('\\[\\[DOLLAR\\]\\]', 'g'), '$$')`. -/
def restoreCurrencySymbols (s : List Char) : List Char := restoreF s.length s

/-- Decides whether the sentinel occurs as a substring. -/
def hasSentinel : List Char → Bool
  | [] => false
  | c :: t => List.isPrefixOf sentinel (c :: t) || hasSentinel t

/-- A pattern is alignment-free for the sentinel when no nonempty suffix of it
is a prefix of the sentinel nor an extension of the sentinel. -/
def noFix (pat : List Char) : Prop :=
  ∀ s ∈ pat.tails, s ≠ [] →
    (List.isPrefixOf s sentinel = false ∧ List.isPrefixOf sentinel s = false)

instance noFixDecidable (pat : List Char) : Decidable (noFix pat) := by
  unfold noFix
  infer_instance

/-! ## Case preservation helpers (`matchCase`, `titleCase`, `matchPhraseCase`) -/

/-- JavaScript `src.split(' ')`: split on every space, keeping empty pieces. -/
def splitSp : List Char → List (List Char)
  | [] => [[]]
  | c :: rest =>
    if c = ' ' then [] :: splitSp rest
    else
      match splitSp rest with
      | w :: ws => (c :: w) :: ws
      | [] => [[c]]

/-- One word of `titleCase`: `word ? word[0].toUpperCase() + word.slice(1).toLowerCase() : word`. -/
def titleWord : List Char → List Char
  | [] => []
  | c :: cs => c.toUpper :: toLowerL cs

/-- Embedding of `titleCase`: split on spaces, capitalise each word, re-join. -/
def titleCase (s : List Char) : List Char :=
  List.intercalate [' '] ((splitSp s).map titleWord)

/-- The per-word title test of `matchPhraseCase`:
`word ? word[0].toUpperCase() === word[0] && word.slice(1).toLowerCase() === word.slice(1) : false`. -/
def isTitleWord : List Char → Bool
  | [] => false
  | c :: cs => (c.toUpper == c) && (toLowerL cs == cs)

/-- Embedding of `matchPhraseCase` (the phrase-variant case helper):
all-uppercase source uppercases the replacement, all-lowercase lowercases it,
title-case title-cases it, anything else returns the replacement unchanged. -/
def matchPhraseCase (src replacement : List Char) : List Char :=
  if toUpperL src = src then toUpperL replacement
  else if toLowerL src = src then toLowerL replacement
  else if (splitSp src).all isTitleWord then titleCase replacement
  else replacement

/-- Embedding of `matchCase` (the single-word case helper used by the suffix
rewriter): all-uppercase source uppercases the replacement; a source with
capitalised first letter and lowercase remainder capitalises the first letter
of the replacement; otherwise the replacement is returned unchanged.
(JavaScript would throw on an empty replacement in the second branch; the
rewriter only ever passes nonempty candidates, and the embedding returns `[]`
there.) -/
def matchCase (src replacement : List Char) : List Char :=
  if toUpperL src = src then toUpperL replacement
  else
    match src with
    | [] => replacement
    | c :: cs =>
      if c.toUpper = c ∧ toLowerL cs = cs then
        match replacement with
        | [] => []
        | r :: rs => r.toUpper :: rs
      else replacement

/-! ## Phrase substitution engine (`applyMappings` / `applyCorrections`) -/

/-- Case-insensitive literal match of `phrase` against the front of the text:
returns the matched span (with the text's original characters) and the rest. -/
def matchCI : List Char → List Char → Option (List Char × List Char)
  | [], s => some ([], s)
  | _ :: _, [] => none
  | p :: ps, c :: cs =>
    if lcEq p c then
      match matchCI ps cs with
      | some (m, r) => some (c :: m, r)
      | none => none
    else none

/-- The `\b` word-boundary assertion between two (possibly absent) characters:
it holds when exactly one side is a word character. -/
def boundary (a b : Option Char) : Bool :=
  (match a with | none => false | some c => isWordChar c)
    != (match b with | none => false | some c => isWordChar c)

/-- Fuelled scan embedding one global replace
`text.replace(new RegExp('\\b' + escapeRegExp(phrase) + '\\b', 'gi'),
m => matchPhraseCase(m, replacement))`: at each position try a
case-insensitive literal match of the phrase guarded by `\b` on both sides;
on success emit the case-adjusted replacement and resume after the match
(the regex engine's `lastIndex` is moved past it), otherwise copy one
character and retry at the next position. -/
def replaceScanF (ph rep : List Char) : Nat → Option Char → List Char → List Char
  | 0, _, s => s
  | _ + 1, _, [] => []
  | fuel + 1, prev, c :: rest =>
    match matchCI ph (c :: rest) with
    | some (m, r) =>
      if m = [] then c :: replaceScanF ph rep fuel (some c) rest
      else if boundary prev (some c) && boundary m.getLast? r.head? then
        matchPhraseCase m rep ++ replaceScanF ph rep fuel m.getLast? r
      else c :: replaceScanF ph rep fuel (some c) rest
    | none => c :: replaceScanF ph rep fuel (some c) rest

/-- One whole-text global replace for one table entry. -/
def replaceScan (ph rep : List Char) (prev : Option Char) (text : List Char) : List Char :=
  replaceScanF ph rep text.length prev text

/-- Stable descending insertion by phrase length.  A stable sort ordered by
`(a, b) => b.phrase.length - a.phrase.length` is uniquely determined by
stability plus the ordering, so this insertion sort has exactly the same
result as the JavaScript engine's stable `Array.prototype.sort`. -/
def insertDesc (x : List Char × List Char) :
    List (List Char × List Char) → List (List Char × List Char)
  | [] => [x]
  | y :: ys => if y.1.length ≤ x.1.length then x :: y :: ys else y :: insertDesc x ys

/-- Table entries sorted by phrase length, longest first (stable). -/
def sortEntries (ms : List (List Char × List Char)) : List (List Char × List Char) :=
  ms.foldr insertDesc []

/-- Embedding of `applyMappings` (named `applyCorrections` in the persisted
variant): sort the entries longest-phrase-first, then apply one global
boundary-aware case-insensitive replace per entry, each entry scanning the
text as updated by the previous entries. -/
def applyMappings (ms : List (List Char × List Char)) (text : List Char) : List Char :=
  (sortEntries ms).foldl (fun acc e => replaceScan e.1 e.2 none acc) text

/-! ## Suffix rewriter (`applyIseConversions`) -/

/-- The fixed, longest-first ordered suffix table of `applyIseConversions`. -/
def suffixPairs : List (List Char × List Char) :=
  [ (['i', 'z', 'a', 't', 'i', 'o', 'n', 's'], ['i', 's', 'a', 't', 'i', 'o', 'n', 's']),
    (['i', 'z', 'a', 't', 'i', 'o', 'n'], ['i', 's', 'a', 't', 'i', 'o', 'n']),
    (['i', 'z', 'e', 'r', 's'], ['i', 's', 'e', 'r', 's']),
    (['i', 'z', 'e', 'r'], ['i', 's', 'e', 'r']),
    (['i', 'z', 'i', 'n', 'g'], ['i', 's', 'i', 'n', 'g']),
    (['i', 'z', 'e', 'd'], ['i', 's', 'e', 'd']),
    (['i', 'z', 'e', 's'], ['i', 's', 'e', 's']),
    (['i', 'z', 'e'], ['i', 's', 'e']) ]

/-- Embedding of `lower.replace(new RegExp(from + '$'), to)` for a token that
ends with `from`: replace the final occurrence of the suffix. -/
def replaceSuffix (lower f t : List Char) : List Char :=
  lower.take (lower.length - f.length) ++ t

/-- The suffix loop of `applyIseConversions`: walk the suffix table in order;
for a suffix the lowered token ends with, accept the rewrite only when the
lowered token is in the US dictionary and the candidate is in the GB
dictionary, otherwise keep trying further suffixes; fall through to the
unchanged token. -/
def trySuffixes (gb us : List (List Char)) (word lower : List Char) :
    List (List Char × List Char) → List Char
  | [] => word
  | (f, t) :: rest =>
    if List.isSuffixOf f lower then
      if us.contains lower && gb.contains (replaceSuffix lower f t) then
        matchCase word (replaceSuffix lower f t)
      else trySuffixes gb us word lower rest
    else trySuffixes gb us word lower rest

/-- The per-token body of `applyIseConversions`: a token whose lowercase form
is already in the GB dictionary is returned unchanged, otherwise the suffix
table is tried. -/
def iseWord (gb us : List (List Char)) (word : List Char) : List Char :=
  if gb.contains (toLowerL word) then word
  else trySuffixes gb us word (toLowerL word) suffixPairs

/-- The apostrophe character (code point 39). -/
def apos : Char := Char.ofNat 39

/-- Optional extension of a letter run by `(?:'[A-Za-z]+)?`: if the rest of
the text starts with an apostrophe followed by at least one letter, the token
absorbs the apostrophe and the following letter run. -/
def tokExt (w : List Char) : List Char → List Char × List Char
  | [] => (w, [])
  | c :: r2 =>
    if c = apos then
      if r2.takeWhile isAsciiLetter = [] then (w, c :: r2)
      else (w ++ c :: r2.takeWhile isAsciiLetter, r2.dropWhile isAsciiLetter)
    else (w, c :: r2)

/-- One maximal token of the regex `[A-Za-z]+(?:'[A-Za-z]+)?`: the leading
letter run, extended by an apostrophe plus a second letter run when present.
Returns the token and the rest of the text. -/
def takeToken (s : List Char) : List Char × List Char :=
  tokExt (s.takeWhile isAsciiLetter) (s.dropWhile isAsciiLetter)

/-- Fuelled scan embedding
`text.replace(/[A-Za-z]+(?:'[A-Za-z]+)?/g, word => ...)`: characters outside
tokens are copied, each maximal token is passed through the callback. -/
def applyIseF (f : List Char → List Char) : Nat → List Char → List Char
  | 0, s => s
  | _ + 1, [] => []
  | fuel + 1, c :: rest =>
    if isAsciiLetter c then
      f (takeToken (c :: rest)).1 ++ applyIseF f fuel (takeToken (c :: rest)).2
    else c :: applyIseF f fuel rest

/-- The token-wise global replace with an arbitrary per-token callback. -/
def applyTokens (f : List Char → List Char) (text : List Char) : List Char :=
  applyIseF f text.length text

/-- Embedding of `applyIseConversions`, parameterised by the two
dictionaries. -/
def applyIseConversions (gb us : List (List Char)) (text : List Char) : List Char :=
  applyTokens (iseWord gb us) text

/-- A segment of the token decomposition: a maximal token of the regex
`[A-Za-z]+(?:'[A-Za-z]+)?`, or one character lying outside every token. -/
inductive Seg where
  | tok : List Char → Seg
  | raw : Char → Seg

/-- Fuelled token/raw decomposition of a text, with the same scan structure
as `applyIseF`. -/
def segmentsF : Nat → List Char → List Seg
  | 0, _ => []
  | _ + 1, [] => []
  | fuel + 1, c :: rest =>
    if isAsciiLetter c then
      Seg.tok (takeToken (c :: rest)).1 :: segmentsF fuel (takeToken (c :: rest)).2
    else Seg.raw c :: segmentsF fuel rest

/-- Token/raw decomposition of a text. -/
def segmentsOf (s : List Char) : List Seg := segmentsF s.length s

/-- Flatten a segment list back into text. -/
def render : List Seg → List Char
  | [] => []
  | Seg.tok w :: ss => w ++ render ss
  | Seg.raw c :: ss => c :: render ss

/-- Apply a callback to token segments only. -/
def mapTok (f : List Char → List Char) : Seg → Seg
  | Seg.tok w => Seg.tok (f w)
  | Seg.raw c => Seg.raw c

/-- The list of maximal tokens of a text, in order. -/
def tokensOf (s : List Char) : List (List Char) :=
  (segmentsOf s).filterMap fun sg =>
    match sg with
    | Seg.tok w => some w
    | Seg.raw _ => none

/-- The phrase `organ` of claim C9. -/
def organ : List Char := ['o', 'r', 'g', 'a', 'n']

/-- The word `organize` of claim C9. -/
def organizeW : List Char := ['o', 'r', 'g', 'a', 'n', 'i', 'z', 'e']

/-! ## Object walker (`convertObject` / `walkAsync`) -/

/-- JSON-like values, the argument type of `convertObject`: string, number,
boolean and null leaves, arrays, and keyed objects with ordered fields. -/
inductive JsonValue where
  | str : List Char → JsonValue
  | num : Int → JsonValue
  | bool : Bool → JsonValue
  | null : JsonValue
  | arr : List JsonValue → JsonValue
  | obj : List (List Char × JsonValue) → JsonValue

mutual

/-- Embedding of `walkAsync(value, transform)`: arrays map elementwise in
order, objects rebuild the same keys in enumeration order with only the
values recursing (`Object.entries` / `Object.fromEntries`), strings pass
through the transform, and any other leaf is returned unchanged.  The
JavaScript function builds a fresh structure and never mutates its argument;
the embedding is a pure function, which models exactly that. -/
def walkValue (t : List Char → List Char) : JsonValue → JsonValue
  | JsonValue.str s => JsonValue.str (t s)
  | JsonValue.num n => JsonValue.num n
  | JsonValue.bool b => JsonValue.bool b
  | JsonValue.null => JsonValue.null
  | JsonValue.arr xs => JsonValue.arr (walkList t xs)
  | JsonValue.obj fs => JsonValue.obj (walkFields t fs)

/-- Elementwise walk of an array (`value.map(item => walkAsync(item, t))`). -/
def walkList (t : List Char → List Char) : List JsonValue → List JsonValue
  | [] => []
  | x :: xs => walkValue t x :: walkList t xs

/-- Fieldwise walk of an object's entries (`[key, walkAsync(val, t)]`). -/
def walkFields (t : List Char → List Char) :
    List (List Char × JsonValue) → List (List Char × JsonValue)
  | [] => []
  | (k, v) :: fs => (k, walkValue t v) :: walkFields t fs

end

mutual

/-- Erase every string payload of a JSON value, keeping all structure:
two values have equal `stripValue` images exactly when they agree on
everything except the contents of string leaves. -/
def stripValue : JsonValue → JsonValue
  | JsonValue.str _ => JsonValue.str []
  | JsonValue.num n => JsonValue.num n
  | JsonValue.bool b => JsonValue.bool b
  | JsonValue.null => JsonValue.null
  | JsonValue.arr xs => JsonValue.arr (stripList xs)
  | JsonValue.obj fs => JsonValue.obj (stripFields fs)

/-- Elementwise `stripValue` on an array. -/
def stripList : List JsonValue → List JsonValue
  | [] => []
  | x :: xs => stripValue x :: stripList xs

/-- Fieldwise `stripValue` on an object's entries, keeping every key. -/
def stripFields : List (List Char × JsonValue) → List (List Char × JsonValue)
  | [] => []
  | (k, v) :: fs => (k, stripValue v) :: stripFields fs

end

/-! ## Persisted corrections table (`addCorrection` / `addCorrections` /
`removeCorrection` of the persisted variant) -/

/-- JavaScript object assignment `obj[key] = value` on a table with unique
string keys: an existing key keeps its position and gets the new value, a new
key is appended. -/
def setKey : List (List Char × List Char) → List Char → List Char →
    List (List Char × List Char)
  | [], f, t => [(f, t)]
  | (k, v) :: rest, f, t =>
    if k = f then (k, t) :: rest else (k, v) :: setKey rest f t

/-- Spread merge `{ ...old, ...new }`: every entry of the update is assigned
into the old table in order. -/
def mergeTable (old upd : List (List Char × List Char)) :
    List (List Char × List Char) :=
  upd.foldl (fun acc p => setKey acc p.1 p.2) old

/-- JavaScript `delete obj[key]` on a table with unique string keys. -/
def removeKey (tbl : List (List Char × List Char)) (f : List Char) :
    List (List Char × List Char) :=
  tbl.filter (fun p => !(p.1 == f))

/-- Embedding of `addCorrection(from, to)` of the persisted variant: the
in-memory table is updated first, then `saveCorrections` runs; the source's
`saveCorrections` catches a write failure only to log it and rethrows, so
the persistence outcome is returned to the caller unchanged.  The durable
write is the abstract capability `persist`. -/
def addCorrection (persist : List (List Char × List Char) → Except ε Unit)
    (tbl : List (List Char × List Char)) (f t : List Char) :
    List (List Char × List Char) × Except ε Unit :=
  (setKey tbl f t, persist (setKey tbl f t))

/-- Embedding of `addCorrections(mappings)`: spread-merge, then persist. -/
def addCorrections (persist : List (List Char × List Char) → Except ε Unit)
    (tbl mappings : List (List Char × List Char)) :
    List (List Char × List Char) × Except ε Unit :=
  (mergeTable tbl mappings, persist (mergeTable tbl mappings))

/-- Embedding of `removeCorrection(from)`: delete the key, then persist. -/
def removeCorrection (persist : List (List Char × List Char) → Except ε Unit)
    (tbl : List (List Char × List Char)) (f : List Char) :
    List (List Char × List Char) × Except ε Unit :=
  (removeKey tbl f, persist (removeKey tbl f))

/-! ## Theorems about the currency round trip (claim C2) -/

theorem restoreF_fuel :
    ∀ f g s, s.length ≤ f → s.length ≤ g → restoreF f s = restoreF g s := by
  intro f
  induction f with
  | zero =>
    intro g s hf _
    have hs : s = [] := List.eq_nil_of_length_eq_zero (Nat.le_zero.mp hf)
    subst hs
    cases g <;> rfl
  | succ f ih =>
    intro g s hf hg
    cases s with
    | nil => cases g <;> rfl
    | cons c t =>
      cases g with
      | zero => simp at hg
      | succ g =>
        simp only [restoreF]
        by_cases h : List.isPrefixOf sentinel (c :: t) = true
        · simp only [h, if_true]
          have hlen : (t.drop 9).length ≤ f := by
            have := List.length_drop 9 t
            simp only [List.length_cons] at hf
            omega
          have hlen' : (t.drop 9).length ≤ g := by
            have := List.length_drop 9 t
            simp only [List.length_cons] at hg
            omega
          rw [ih g (t.drop 9) hlen hlen']
        · simp only [Bool.not_eq_true] at h
          simp only [h, Bool.false_eq_true, if_false]
          have hlen : t.length ≤ f := by simp only [List.length_cons] at hf; omega
          have hlen' : t.length ≤ g := by simp only [List.length_cons] at hg; omega
          rw [ih g t hlen hlen']

theorem isPrefixOf_self_append (l s : List Char) :
    List.isPrefixOf l (l ++ s) = true := by
  induction l with
  | nil => simp [List.isPrefixOf]
  | cons a as ih => simp [List.isPrefixOf, ih]

theorem restore_sentinel_step (xs : List Char) :
    restoreCurrencySymbols (sentinel ++ xs) = '$' :: restoreCurrencySymbols xs := by
  have hlen : (sentinel ++ xs).length = xs.length + 10 := by
    simp [sentinel]
  unfold restoreCurrencySymbols
  rw [hlen]
  have hpre : List.isPrefixOf sentinel (sentinel ++ xs) = true :=
    isPrefixOf_self_append _ _
  have hx : sentinel ++ xs
      = '[' :: ('[' :: 'D' :: 'O' :: 'L' :: 'L' :: 'A' :: 'R' :: ']' :: ']' :: xs) := rfl
  rw [hx] at hpre ⊢
  show restoreF (xs.length + 9 + 1) _ = _
  rw [restoreF, if_pos hpre]
  have hdrop :
      List.drop 9 (('[' : Char) :: 'D' :: 'O' :: 'L' :: 'L' :: 'A' :: 'R' :: ']' :: ']' :: xs)
        = xs := rfl
  rw [hdrop]
  rw [restoreF_fuel (xs.length + 9) xs.length xs (by omega) (by omega)]

theorem restore_copy_step (c : Char) (t : List Char)
    (h : List.isPrefixOf sentinel (c :: t) = false) :
    restoreCurrencySymbols (c :: t) = c :: restoreCurrencySymbols t := by
  unfold restoreCurrencySymbols
  show restoreF (t.length + 1) (c :: t) = c :: restoreF t.length t
  simp only [restoreF, h, Bool.false_eq_true, if_false]

theorem isPrefixOf_append_cases :
    ∀ (pat A B : List Char), List.isPrefixOf pat (A ++ B) = true →
      List.isPrefixOf pat A = true ∨ List.isPrefixOf A pat = true := by
  intro pat
  induction pat with
  | nil => intro A B _; left; simp [List.isPrefixOf]
  | cons p ps ih =>
    intro A B h
    cases A with
    | nil => right; simp [List.isPrefixOf]
    | cons a as =>
      simp only [List.cons_append, List.isPrefixOf, Bool.and_eq_true] at h
      rcases h with ⟨hpa, hrest⟩
      rcases ih as B hrest with h1 | h1
      · left; simp [List.isPrefixOf, hpa, h1]
      · right
        have hap : a = p := (beq_iff_eq.mp hpa).symm
        subst hap
        simp [List.isPrefixOf, h1]

theorem noFix_tail {p : Char} {ps : List Char} (h : noFix (p :: ps)) : noFix ps := by
  intro s hs hne
  exact h s (by simp [List.tails_cons, hs]) hne

theorem protect_prefix_lift :
    ∀ (r pat : List Char), noFix pat →
      List.isPrefixOf pat (protectCurrencySymbols r) = true →
      List.isPrefixOf pat r = true := by
  intro r
  induction r with
  | nil =>
    intro pat _ h
    cases pat with
    | nil => simp [List.isPrefixOf]
    | cons p ps => simp [protectCurrencySymbols, List.isPrefixOf] at h
  | cons c r ih =>
    intro pat hnf h
    by_cases hc : c = '$'
    · subst hc
      cases pat with
      | nil => simp [List.isPrefixOf]
      | cons p ps =>
        have hmem : (p :: ps) ∈ (p :: ps).tails := by
          simp [List.tails_cons]
        have hno := hnf (p :: ps) hmem (by simp)
        simp only [protectCurrencySymbols, if_pos rfl] at h
        rcases isPrefixOf_append_cases (p :: ps) sentinel
            (protectCurrencySymbols r) h with h1 | h1
        · rw [hno.1] at h1; exact absurd h1 (by simp)
        · rw [hno.2] at h1; exact absurd h1 (by simp)
    · simp only [protectCurrencySymbols, if_neg hc, List.cons_append,
        List.nil_append] at h
      cases pat with
      | nil => simp [List.isPrefixOf]
      | cons p ps =>
        simp only [List.isPrefixOf, Bool.and_eq_true] at h ⊢
        exact ⟨h.1, ih ps (noFix_tail hnf) h.2⟩

theorem hasSentinel_tail {c : Char} {t : List Char}
    (h : hasSentinel (c :: t) = false) : hasSentinel t = false := by
  simp only [hasSentinel, Bool.or_eq_false_iff] at h
  exact h.2

/-- Claim C2 (amended): composing `protectCurrencySymbols` with
`restoreCurrencySymbols` is the identity on every input that does not already
contain the sentinel token `[[DOLLAR]]` as a substring (so in particular every
dollar sign reappears at its original position); the claim as frozen fails on
inputs containing the sentinel, see the counterexample. -/
theorem currency_round_trip (t : List Char) (h : hasSentinel t = false) :
    restoreCurrencySymbols (protectCurrencySymbols t) = t := by
  induction t with
  | nil => rfl
  | cons c r ih =>
    by_cases hc : c = '$'
    · subst hc
      have hstep : protectCurrencySymbols ('$' :: r)
          = sentinel ++ protectCurrencySymbols r := by
        simp [protectCurrencySymbols]
      rw [hstep, restore_sentinel_step, ih (hasSentinel_tail h)]
    · have hstep : protectCurrencySymbols (c :: r)
          = c :: protectCurrencySymbols r := by
        simp [protectCurrencySymbols, hc]
      rw [hstep]
      have hpre : List.isPrefixOf sentinel (c :: protectCurrencySymbols r) = false := by
        by_contra hcon
        simp only [Bool.not_eq_false] at hcon
        have hsent : sentinel = '[' :: ['[', 'D', 'O', 'L', 'L', 'A', 'R', ']', ']'] := rfl
        rw [hsent] at hcon
        simp only [List.isPrefixOf, Bool.and_eq_true] at hcon
        rcases hcon with ⟨hbc, htail⟩
        have hlift : List.isPrefixOf ['[', 'D', 'O', 'L', 'L', 'A', 'R', ']', ']'] r = true :=
          protect_prefix_lift r _ (by decide) htail
        have hc2 : c = '[' := by
          have := beq_iff_eq.mp hbc
          exact this.symm
        have : hasSentinel (c :: r) = true := by
          subst hc2
          simp only [hasSentinel, Bool.or_eq_true]
          left
          rw [hsent]
          simp [List.isPrefixOf, hlift]
        rw [this] at h
        exact absurd h (by simp)
      rw [restore_copy_step c _ hpre, ih (hasSentinel_tail h)]

/-- Claim C2 counterexample: on the input `[[DOLLAR]]` — ten ordinary ASCII
characters that can legitimately appear in input text — the protect/restore
pair is not the identity (the text collides with the sentinel and is turned
into `$`), refuting the claim as frozen. -/
theorem currency_round_trip_cex :
    restoreCurrencySymbols (protectCurrencySymbols
      ['[', '[', 'D', 'O', 'L', 'L', 'A', 'R', ']', ']'])
      ≠ ['[', '[', 'D', 'O', 'L', 'L', 'A', 'R', ']', ']'] := by decide

/-- Witness for `currency_round_trip` at the concrete input `pay $5`. -/
theorem currency_round_trip_wit :
    hasSentinel ['p', 'a', 'y', ' ', '$', '5'] = false ∧
    restoreCurrencySymbols (protectCurrencySymbols ['p', 'a', 'y', ' ', '$', '5'])
      = ['p', 'a', 'y', ' ', '$', '5'] :=
  ⟨by decide, currency_round_trip _ (by decide)⟩

/-! ## Theorems about the substitution engine (claims C3, C4, C8) -/

/-- Claim C3: `applyMappings` applies table entries in descending
phrase-length order.  For the two-entry table mapping `zip` to `X` and
`zip code` to `postcode`, the entries are sorted with `zip code` first, and
applying the table to the text `zip code` yields `postcode` (never `X code`).
-/
theorem applyMappings_longest_first :
    sortEntries [(['z', 'i', 'p'], ['X']),
        (['z', 'i', 'p', ' ', 'c', 'o', 'd', 'e'],
         ['p', 'o', 's', 't', 'c', 'o', 'd', 'e'])]
      = [(['z', 'i', 'p', ' ', 'c', 'o', 'd', 'e'],
          ['p', 'o', 's', 't', 'c', 'o', 'd', 'e']),
         (['z', 'i', 'p'], ['X'])] ∧
    applyMappings [(['z', 'i', 'p'], ['X']),
        (['z', 'i', 'p', ' ', 'c', 'o', 'd', 'e'],
         ['p', 'o', 's', 't', 'c', 'o', 'd', 'e'])]
      ['z', 'i', 'p', ' ', 'c', 'o', 'd', 'e']
      = ['p', 'o', 's', 't', 'c', 'o', 'd', 'e'] :=
  ⟨by decide, by decide⟩

/-- Claim C4 counterexample: on the mixed-case two-word source `Zip code`
(first letter capitalised, remainder lowercase), `matchPhraseCase` returns the
replacement `postcode` entirely unchanged — it does not capitalise the first
letter as the claim states (that rule exists only in the single-word helper
`matchCase`). -/
theorem matchPhraseCase_zip_cex :
    matchPhraseCase ['Z', 'i', 'p', ' ', 'c', 'o', 'd', 'e']
        ['p', 'o', 's', 't', 'c', 'o', 'd', 'e']
      = ['p', 'o', 's', 't', 'c', 'o', 'd', 'e'] ∧
    matchPhraseCase ['Z', 'i', 'p', ' ', 'c', 'o', 'd', 'e']
        ['p', 'o', 's', 't', 'c', 'o', 'd', 'e']
      ≠ ['P', 'o', 's', 't', 'c', 'o', 'd', 'e'] :=
  ⟨by decide, by decide⟩

/-- Claim C4 (amended): for every mixed-case source span — neither
all-uppercase, nor all-lowercase, nor title-case, which includes a multi-word
span whose first letter is capitalised with lowercase remainder such as
`Zip code` — `matchPhraseCase` returns the replacement unchanged. -/
theorem matchPhraseCase_mixed (src rep : List Char)
    (h1 : toUpperL src ≠ src) (h2 : toLowerL src ≠ src)
    (h3 : (splitSp src).all isTitleWord = false) :
    matchPhraseCase src rep = rep := by
  unfold matchPhraseCase
  rw [if_neg h1, if_neg h2]
  simp [h3]

/-- Witness for `matchPhraseCase_mixed` at the source `Zip code`. -/
theorem matchPhraseCase_mixed_wit :
    matchPhraseCase ['Z', 'i', 'p', ' ', 'c', 'o', 'd', 'e'] ['p', 'o', 's', 't']
      = ['p', 'o', 's', 't'] :=
  matchPhraseCase_mixed _ _ (by decide) (by decide) (by decide)

/-- Claim C8: the replacement value of a table entry is substituted into the
text literally, for every replacement list, because the source passes the
replacement through the callback `m => matchPhraseCase(m, replacement)` and a
callback's return value is never scanned for back-reference placeholders.
In particular the replacement `$&` — which as a plain replacement string
would denote the whole match — comes out verbatim.  The source `aB` is
mixed-case so the case helper also leaves the replacement untouched. -/
theorem replacement_literal :
    (∀ rep : List Char, applyMappings [(['a', 'B'], rep)] ['a', 'B'] = rep) ∧
    applyMappings [(['a', 'B'], ['$', '&'])] ['a', 'B'] = ['$', '&'] := by
  constructor
  · intro rep
    show matchPhraseCase ['a', 'B'] rep
        ++ replaceScanF ['a', 'B'] rep 0 (some 'B') [] = rep
    show matchPhraseCase ['a', 'B'] rep ++ [] = rep
    rw [List.append_nil]
    rfl
  · decide

/-! ## Theorems about tokenisation and the suffix rewriter (claims C1, C6, C10) -/

theorem tokExt_append (w : List Char) :
    ∀ r, (tokExt w r).1 ++ (tokExt w r).2 = w ++ r := by
  intro r
  cases r with
  | nil => simp [tokExt]
  | cons c r2 =>
    by_cases hc : c = apos
    · by_cases hw2 : r2.takeWhile isAsciiLetter = []
      · simp [tokExt, hc, hw2]
      · simp only [tokExt, if_pos hc, if_neg hw2]
        rw [List.append_assoc]
        simp [List.takeWhile_append_dropWhile]
    · simp [tokExt, hc]

theorem takeToken_append (s : List Char) :
    (takeToken s).1 ++ (takeToken s).2 = s := by
  unfold takeToken
  rw [tokExt_append]
  exact List.takeWhile_append_dropWhile isAsciiLetter s

theorem tokExt_fst_len (w : List Char) :
    ∀ r, w.length ≤ (tokExt w r).1.length := by
  intro r
  cases r with
  | nil => simp [tokExt]
  | cons c r2 =>
    by_cases hc : c = apos
    · by_cases hw2 : r2.takeWhile isAsciiLetter = []
      · simp [tokExt, hc, hw2]
      · simp [tokExt, hc, hw2]
    · simp [tokExt, hc]

theorem takeToken_fst_ne (c : Char) (rest : List Char) (h : isAsciiLetter c = true) :
    (takeToken (c :: rest)).1 ≠ [] := by
  have htw : (c :: rest).takeWhile isAsciiLetter = c :: rest.takeWhile isAsciiLetter :=
    List.takeWhile_cons_of_pos h
  unfold takeToken
  rw [htw]
  have hlen := tokExt_fst_len (c :: rest.takeWhile isAsciiLetter)
    ((c :: rest).dropWhile isAsciiLetter)
  intro hnil
  rw [hnil] at hlen
  simp at hlen

theorem takeToken_snd_len (c : Char) (rest : List Char) (h : isAsciiLetter c = true) :
    (takeToken (c :: rest)).2.length ≤ rest.length := by
  have happ := takeToken_append (c :: rest)
  have hne := takeToken_fst_ne c rest h
  have hsum : (takeToken (c :: rest)).1.length + (takeToken (c :: rest)).2.length
      = rest.length + 1 := by
    have := congrArg List.length happ
    simpa [List.length_append] using this
  have h1 : 1 ≤ (takeToken (c :: rest)).1.length := by
    cases hx : (takeToken (c :: rest)).1 with
    | nil => exact absurd hx hne
    | cons a as => simp
  omega

theorem applyIseF_fuel (f : List Char → List Char) :
    ∀ n m s, s.length ≤ n → s.length ≤ m → applyIseF f n s = applyIseF f m s := by
  intro n
  induction n with
  | zero =>
    intro m s hn _
    have hs : s = [] := List.eq_nil_of_length_eq_zero (Nat.le_zero.mp hn)
    subst hs
    cases m <;> rfl
  | succ n ih =>
    intro m s hn hm
    cases s with
    | nil => cases m <;> rfl
    | cons c rest =>
      cases m with
      | zero => simp at hm
      | succ m =>
        simp only [applyIseF]
        by_cases hc : isAsciiLetter c = true
        · simp only [hc, if_true]
          have hr : (takeToken (c :: rest)).2.length ≤ n := by
            have := takeToken_snd_len c rest hc
            simp only [List.length_cons] at hn
            omega
          have hr' : (takeToken (c :: rest)).2.length ≤ m := by
            have := takeToken_snd_len c rest hc
            simp only [List.length_cons] at hm
            omega
          rw [ih m _ hr hr']
        · simp only [Bool.not_eq_true] at hc
          simp only [hc, Bool.false_eq_true, if_false]
          have hr : rest.length ≤ n := by
            simp only [List.length_cons] at hn; omega
          have hr' : rest.length ≤ m := by
            simp only [List.length_cons] at hm; omega
          rw [ih m rest hr hr']

theorem segmentsF_fuel :
    ∀ n m s, s.length ≤ n → s.length ≤ m → segmentsF n s = segmentsF m s := by
  intro n
  induction n with
  | zero =>
    intro m s hn _
    have hs : s = [] := List.eq_nil_of_length_eq_zero (Nat.le_zero.mp hn)
    subst hs
    cases m <;> rfl
  | succ n ih =>
    intro m s hn hm
    cases s with
    | nil => cases m <;> rfl
    | cons c rest =>
      cases m with
      | zero => simp at hm
      | succ m =>
        simp only [segmentsF]
        by_cases hc : isAsciiLetter c = true
        · simp only [hc, if_true]
          have hr : (takeToken (c :: rest)).2.length ≤ n := by
            have := takeToken_snd_len c rest hc
            simp only [List.length_cons] at hn
            omega
          have hr' : (takeToken (c :: rest)).2.length ≤ m := by
            have := takeToken_snd_len c rest hc
            simp only [List.length_cons] at hm
            omega
          rw [ih m _ hr hr']
        · simp only [Bool.not_eq_true] at hc
          simp only [hc, Bool.false_eq_true, if_false]
          have hr : rest.length ≤ n := by
            simp only [List.length_cons] at hn; omega
          have hr' : rest.length ≤ m := by
            simp only [List.length_cons] at hm; omega
          rw [ih m rest hr hr']

theorem applyTokens_tok (f : List Char → List Char) (c : Char) (rest : List Char)
    (h : isAsciiLetter c = true) :
    applyTokens f (c :: rest)
      = f (takeToken (c :: rest)).1 ++ applyTokens f (takeToken (c :: rest)).2 := by
  unfold applyTokens
  show applyIseF f (rest.length + 1) (c :: rest) = _
  simp only [applyIseF, h, if_true]
  rw [applyIseF_fuel f rest.length (takeToken (c :: rest)).2.length _
    (takeToken_snd_len c rest h) le_rfl]

theorem applyTokens_raw (f : List Char → List Char) (c : Char) (rest : List Char)
    (h : isAsciiLetter c = false) :
    applyTokens f (c :: rest) = c :: applyTokens f rest := by
  unfold applyTokens
  show applyIseF f (rest.length + 1) (c :: rest) = _
  simp only [applyIseF, h, Bool.false_eq_true, if_false]

theorem segmentsOf_tok (c : Char) (rest : List Char) (h : isAsciiLetter c = true) :
    segmentsOf (c :: rest)
      = Seg.tok (takeToken (c :: rest)).1 :: segmentsOf (takeToken (c :: rest)).2 := by
  unfold segmentsOf
  show segmentsF (rest.length + 1) (c :: rest) = _
  simp only [segmentsF, h, if_true]
  rw [segmentsF_fuel rest.length (takeToken (c :: rest)).2.length _
    (takeToken_snd_len c rest h) le_rfl]

theorem segmentsOf_raw (c : Char) (rest : List Char) (h : isAsciiLetter c = false) :
    segmentsOf (c :: rest) = Seg.raw c :: segmentsOf rest := by
  unfold segmentsOf
  show segmentsF (rest.length + 1) (c :: rest) = _
  simp only [segmentsF, h, Bool.false_eq_true, if_false]

theorem applyTokens_render :
    ∀ n (s : List Char), s.length ≤ n → ∀ f : List Char → List Char,
      applyTokens f s = render ((segmentsOf s).map (mapTok f)) ∧
      render (segmentsOf s) = s := by
  intro n
  induction n with
  | zero =>
    intro s hn f
    have hs : s = [] := List.eq_nil_of_length_eq_zero (Nat.le_zero.mp hn)
    subst hs
    exact ⟨rfl, rfl⟩
  | succ n ih =>
    intro s hn f
    cases s with
    | nil => exact ⟨rfl, rfl⟩
    | cons c rest =>
      by_cases hc : isAsciiLetter c = true
      · have hlen : (takeToken (c :: rest)).2.length ≤ n := by
          have := takeToken_snd_len c rest hc
          simp only [List.length_cons] at hn
          omega
        obtain ⟨ih1, ih2⟩ := ih _ hlen f
        rw [applyTokens_tok f c rest hc, segmentsOf_tok c rest hc]
        constructor
        · simp only [List.map_cons, mapTok, render]
          rw [ih1]
        · simp only [render]
          rw [ih2]
          exact takeToken_append (c :: rest)
      · simp only [Bool.not_eq_true] at hc
        have hlen : rest.length ≤ n := by
          simp only [List.length_cons] at hn; omega
        obtain ⟨ih1, ih2⟩ := ih rest hlen f
        rw [applyTokens_raw f c rest hc, segmentsOf_raw c rest hc]
        constructor
        · simp only [List.map_cons, mapTok, render]
          rw [ih1]
        · simp only [render]
          rw [ih2]

/-- Claim C10: `applyIseConversions` only rewrites maximal letter tokens
(optionally containing one internal apostrophe followed by letters) in place:
the text decomposes into token and non-token segments, the decomposition
renders back to the text itself (so every character outside a token is kept
verbatim, in order), and the output is exactly that decomposition with each
token segment replaced by its per-token rewrite — token count and positions
are preserved. -/
theorem applyIse_token_structure (gb us : List (List Char)) (s : List Char) :
    applyIseConversions gb us s
        = render ((segmentsOf s).map (mapTok (iseWord gb us))) ∧
    render (segmentsOf s) = s :=
  applyTokens_render s.length s le_rfl (iseWord gb us)

theorem iseWord_gb (gb us : List (List Char)) (w : List Char)
    (h : List.contains gb (toLowerL w) = true) : iseWord gb us w = w := by
  unfold iseWord
  rw [if_pos h]

/-- Claim C6: `applyIseConversions` is a no-op on words already in the GB
dictionary — if every token of the text has its lowercase form in the GB
dictionary, the whole text (casing included) comes back unchanged. -/
theorem applyIse_noop_on_gb (gb us : List (List Char)) (s : List Char)
    (h : ∀ w ∈ tokensOf s, List.contains gb (toLowerL w) = true) :
    applyIseConversions gb us s = s := by
  obtain ⟨h1, h2⟩ := applyTokens_render s.length s le_rfl (iseWord gb us)
  show applyTokens (iseWord gb us) s = s
  rw [h1]
  have hmap : (segmentsOf s).map (mapTok (iseWord gb us)) = segmentsOf s := by
    have hcongr : ∀ sg ∈ segmentsOf s, mapTok (iseWord gb us) sg = id sg := by
      intro sg hsg
      cases sg with
      | raw c => rfl
      | tok w =>
        have hw : w ∈ tokensOf s := by
          unfold tokensOf
          exact List.mem_filterMap.mpr ⟨Seg.tok w, hsg, rfl⟩
        simp only [mapTok, id_eq]
        rw [iseWord_gb gb us w (h w hw)]
    rw [List.map_congr_left hcongr, List.map_id]
  rw [hmap, h2]

/-- Witness for `applyIse_noop_on_gb` on the text `organise colour!` with a
GB dictionary containing both words. -/
theorem applyIse_noop_on_gb_wit :
    applyIseConversions
        [['o', 'r', 'g', 'a', 'n', 'i', 's', 'e'], ['c', 'o', 'l', 'o', 'u', 'r']] []
        ['o', 'r', 'g', 'a', 'n', 'i', 's', 'e', ' ', 'c', 'o', 'l', 'o', 'u', 'r', '!']
      = ['o', 'r', 'g', 'a', 'n', 'i', 's', 'e', ' ', 'c', 'o', 'l', 'o', 'u', 'r', '!'] :=
  applyIse_noop_on_gb _ _ _ (by decide)

theorem trySuffixes_ne (gb us : List (List Char)) (word lower : List Char) :
    ∀ pairs, trySuffixes gb us word lower pairs ≠ word →
      List.contains us lower = true ∧
      ∃ p ∈ pairs, List.isSuffixOf p.1 lower = true ∧
        List.contains gb (replaceSuffix lower p.1 p.2) = true ∧
        trySuffixes gb us word lower pairs
          = matchCase word (replaceSuffix lower p.1 p.2) := by
  intro pairs
  induction pairs with
  | nil => intro h; exact absurd rfl h
  | cons ft rest ih =>
    obtain ⟨f, t⟩ := ft
    intro h
    by_cases hsuf : List.isSuffixOf f lower = true
    · by_cases hcond :
        (List.contains us lower && List.contains gb (replaceSuffix lower f t)) = true
      · have heq : trySuffixes gb us word lower ((f, t) :: rest)
            = matchCase word (replaceSuffix lower f t) := by
          simp only [trySuffixes, hsuf, if_true, hcond]
        have hsplit : List.contains us lower = true ∧
            List.contains gb (replaceSuffix lower f t) = true := by
          simpa using hcond
        rcases hsplit with ⟨hus, hgb⟩
        exact ⟨hus, (f, t), List.mem_cons_self _ _, hsuf, hgb, heq⟩
      · have heq : trySuffixes gb us word lower ((f, t) :: rest)
            = trySuffixes gb us word lower rest := by
          simp only [Bool.not_eq_true] at hcond
          simp only [trySuffixes, hsuf, if_true, hcond, Bool.false_eq_true, if_false]
        rw [heq] at h ⊢
        obtain ⟨hus, p, hp, hrest⟩ := ih h
        exact ⟨hus, p, List.mem_cons_of_mem _ hp, hrest⟩
    · have heq : trySuffixes gb us word lower ((f, t) :: rest)
          = trySuffixes gb us word lower rest := by
        simp only [Bool.not_eq_true] at hsuf
        simp only [trySuffixes, hsuf, Bool.false_eq_true, if_false]
      rw [heq] at h ⊢
      obtain ⟨hus, p, hp, hrest⟩ := ih h
      exact ⟨hus, p, List.mem_cons_of_mem _ hp, hrest⟩

theorem trySuffixes_us_false (gb us : List (List Char)) (word lower : List Char)
    (h : List.contains us lower = false) :
    ∀ pairs, trySuffixes gb us word lower pairs = word := by
  intro pairs
  induction pairs with
  | nil => rfl
  | cons ft rest ih =>
    obtain ⟨f, t⟩ := ft
    by_cases hsuf : List.isSuffixOf f lower = true
    · have hcond :
          (List.contains us lower && List.contains gb (replaceSuffix lower f t)) = false := by
        rw [h]
        rfl
      simp only [trySuffixes, hsuf, if_true, hcond, Bool.false_eq_true, if_false]
      exact ih
    · simp only [Bool.not_eq_true] at hsuf
      simp only [trySuffixes, hsuf, Bool.false_eq_true, if_false]
      exact ih

/-- Claim C1: the suffix rewriter rewrites a token only under dual-dictionary
validation.  First conjunct: whenever `iseWord` changes a token, the lowered
token was in the US dictionary and some suffix-table entry applies whose
candidate is in the GB dictionary, the result being the case-adjusted
candidate.  Second conjunct: a token ending in `ize` that is in neither
dictionary is returned unchanged. -/
theorem iseWord_conservative (gb us : List (List Char)) (w : List Char) :
    (iseWord gb us w ≠ w →
      List.contains us (toLowerL w) = true ∧
      ∃ p ∈ suffixPairs, List.isSuffixOf p.1 (toLowerL w) = true ∧
        List.contains gb (replaceSuffix (toLowerL w) p.1 p.2) = true ∧
        iseWord gb us w = matchCase w (replaceSuffix (toLowerL w) p.1 p.2)) ∧
    (List.isSuffixOf ['i', 'z', 'e'] (toLowerL w) = true →
      List.contains us (toLowerL w) = false →
      List.contains gb (toLowerL w) = false →
      iseWord gb us w = w) := by
  constructor
  · intro hne
    by_cases hgb : List.contains gb (toLowerL w) = true
    · exact absurd (iseWord_gb gb us w hgb) hne
    · have hmk : iseWord gb us w = trySuffixes gb us w (toLowerL w) suffixPairs := by
        unfold iseWord
        rw [if_neg hgb]
      rw [hmk] at hne ⊢
      exact trySuffixes_ne gb us w (toLowerL w) suffixPairs hne
  · intro _ hus hgb
    unfold iseWord
    rw [if_neg (by rw [hgb]; simp)]
    exact trySuffixes_us_false gb us w (toLowerL w) hus suffixPairs

/-- Witness for `iseWord_conservative`: with GB dictionary `prise` and US
dictionary `prize`, the token `prize` is rewritten (first conjunct's
hypothesis holds and is discharged), and the synthetic token `xize`, absent
from both (empty) dictionaries, is unchanged (second conjunct). -/
theorem iseWord_conservative_wit :
    (List.contains [['p', 'r', 'i', 'z', 'e']] (toLowerL ['p', 'r', 'i', 'z', 'e']) = true ∧
      ∃ p ∈ suffixPairs,
        List.isSuffixOf p.1 (toLowerL ['p', 'r', 'i', 'z', 'e']) = true ∧
        List.contains [['p', 'r', 'i', 's', 'e']]
          (replaceSuffix (toLowerL ['p', 'r', 'i', 'z', 'e']) p.1 p.2) = true ∧
        iseWord [['p', 'r', 'i', 's', 'e']] [['p', 'r', 'i', 'z', 'e']]
            ['p', 'r', 'i', 'z', 'e']
          = matchCase ['p', 'r', 'i', 'z', 'e']
              (replaceSuffix (toLowerL ['p', 'r', 'i', 'z', 'e']) p.1 p.2)) ∧
    iseWord [] [] ['x', 'i', 'z', 'e'] = ['x', 'i', 'z', 'e'] :=
  ⟨(iseWord_conservative [['p', 'r', 'i', 's', 'e']] [['p', 'r', 'i', 'z', 'e']]
      ['p', 'r', 'i', 'z', 'e']).1 (by decide),
   (iseWord_conservative [] [] ['x', 'i', 'z', 'e']).2 (by decide) (by decide) (by decide)⟩

/-! ## Theorems about boundary-aware matching (claim C9) -/

theorem matchCI_cons_eq (p c : Char) (ps cs : List Char) :
    matchCI (p :: ps) (c :: cs)
      = if lcEq p c then
          (match matchCI ps cs with
           | some (m, r) => some (c :: m, r)
           | none => none)
        else none := rfl

theorem matchCI_eq :
    ∀ (p s m r : List Char), matchCI p s = some (m, r) →
      s = m ++ r ∧ m.length = p.length := by
  intro p
  induction p with
  | nil =>
    intro s m r h
    simp only [matchCI, Option.some.injEq, Prod.mk.injEq] at h
    obtain ⟨hm, hr⟩ := h
    subst hm
    subst hr
    exact ⟨rfl, rfl⟩
  | cons p ps ih =>
    intro s m r h
    cases s with
    | nil => simp [matchCI] at h
    | cons c cs =>
      rw [matchCI_cons_eq] at h
      by_cases hlc : lcEq p c = true
      · rw [if_pos hlc] at h
        cases hm : matchCI ps cs with
        | none => rw [hm] at h; simp at h
        | some pr =>
          obtain ⟨m', r'⟩ := pr
          rw [hm] at h
          simp only [Option.some.injEq, Prod.mk.injEq] at h
          obtain ⟨hm1, hr1⟩ := h
          obtain ⟨hs, hl⟩ := ih cs m' r' hm
          subst hm1
          subst hr1
          constructor
          · simp [hs]
          · simp [hl]
      · rw [if_neg hlc] at h
        simp at h

theorem replaceScanF_fuel (ph rep : List Char) :
    ∀ n m prev s, s.length ≤ n → s.length ≤ m →
      replaceScanF ph rep n prev s = replaceScanF ph rep m prev s := by
  intro n
  induction n with
  | zero =>
    intro m prev s hn _
    have hs : s = [] := List.eq_nil_of_length_eq_zero (Nat.le_zero.mp hn)
    subst hs
    cases m <;> rfl
  | succ n ih =>
    intro m prev s hn hm
    cases s with
    | nil => cases m <;> rfl
    | cons c rest =>
      cases m with
      | zero => simp at hm
      | succ m =>
        have hrest : rest.length ≤ n := by
          simp only [List.length_cons] at hn; omega
        have hrest' : rest.length ≤ m := by
          simp only [List.length_cons] at hm; omega
        simp only [replaceScanF]
        split
        next mm r heq =>
          by_cases hmm : mm = []
          · rw [if_pos hmm, if_pos hmm, ih m (some c) rest hrest hrest']
          · rw [if_neg hmm, if_neg hmm]
            have hr : r.length ≤ rest.length := by
              obtain ⟨hs, _⟩ := matchCI_eq ph (c :: rest) mm r heq
              have hlen := congrArg List.length hs
              simp only [List.length_cons, List.length_append] at hlen
              have hm1 : 1 ≤ mm.length := by
                cases hx : mm with
                | nil => exact absurd hx hmm
                | cons a as => simp
              omega
            by_cases hb : (boundary prev (some c) && boundary mm.getLast? r.head?) = true
            · rw [if_pos hb, if_pos hb,
                ih m mm.getLast? r (le_trans hr hrest) (le_trans hr hrest')]
            · rw [if_neg hb, if_neg hb, ih m (some c) rest hrest hrest']
        next heq =>
          rw [ih m (some c) rest hrest hrest']

theorem replaceScan_nomatch (ph rep : List Char) (prev : Option Char) (c : Char)
    (rest : List Char) (h : matchCI ph (c :: rest) = none) :
    replaceScan ph rep prev (c :: rest) = c :: replaceScan ph rep (some c) rest := by
  unfold replaceScan
  show replaceScanF ph rep (rest.length + 1) prev (c :: rest) = _
  simp only [replaceScanF, h]

theorem replaceScan_skip (ph rep : List Char) (prev : Option Char) (c : Char)
    (rest m r : List Char) (hm : matchCI ph (c :: rest) = some (m, r)) (hne : m ≠ [])
    (hb : (boundary prev (some c) && boundary m.getLast? r.head?) = false) :
    replaceScan ph rep prev (c :: rest) = c :: replaceScan ph rep (some c) rest := by
  unfold replaceScan
  show replaceScanF ph rep (rest.length + 1) prev (c :: rest) = _
  simp only [replaceScanF, hm]
  rw [if_neg hne, hb]
  simp

theorem replaceScan_match (ph rep : List Char) (prev : Option Char) (c : Char)
    (rest m r : List Char) (hm : matchCI ph (c :: rest) = some (m, r)) (hne : m ≠ [])
    (hb : (boundary prev (some c) && boundary m.getLast? r.head?) = true) :
    replaceScan ph rep prev (c :: rest)
      = matchPhraseCase m rep ++ replaceScan ph rep m.getLast? r := by
  unfold replaceScan
  show replaceScanF ph rep (rest.length + 1) prev (c :: rest) = _
  have hr : r.length ≤ rest.length := by
    obtain ⟨hs, _⟩ := matchCI_eq ph (c :: rest) m r hm
    have hlen := congrArg List.length hs
    simp only [List.length_cons, List.length_append] at hlen
    have hm1 : 1 ≤ m.length := by
      cases hx : m with
      | nil => exact absurd hx hne
      | cons a as => simp
    omega
  simp only [replaceScanF, hm]
  rw [if_neg hne, hb]
  simp only [if_true]
  rw [replaceScanF_fuel ph rep rest.length r.length m.getLast? r hr le_rfl]

theorem matchCI_organ_short (u v : List Char) (h1 : 1 ≤ u.length)
    (h4 : u.length ≤ 4) :
    matchCI organ (u ++ organizeW ++ v) = none := by
  rcases u with _ | ⟨a, _ | ⟨b, _ | ⟨c, _ | ⟨d, _ | ⟨e, tail⟩⟩⟩⟩⟩
  · simp at h1
  · show matchCI organ
      (a :: 'o' :: 'r' :: 'g' :: 'a' :: 'n' :: 'i' :: 'z' :: 'e' :: v) = none
    simp only [organ]
    rw [matchCI_cons_eq]
    have hin : matchCI ['r', 'g', 'a', 'n']
        ('o' :: 'r' :: 'g' :: 'a' :: 'n' :: 'i' :: 'z' :: 'e' :: v) = none := rfl
    rw [hin]
    cases hb : lcEq 'o' a <;> rfl
  · show matchCI organ
      (a :: b :: 'o' :: 'r' :: 'g' :: 'a' :: 'n' :: 'i' :: 'z' :: 'e' :: v) = none
    simp only [organ]
    rw [matchCI_cons_eq, matchCI_cons_eq]
    have hin : matchCI ['g', 'a', 'n']
        ('o' :: 'r' :: 'g' :: 'a' :: 'n' :: 'i' :: 'z' :: 'e' :: v) = none := rfl
    rw [hin]
    cases hb1 : lcEq 'o' a <;> cases hb2 : lcEq 'r' b <;> rfl
  · show matchCI organ
      (a :: b :: c :: 'o' :: 'r' :: 'g' :: 'a' :: 'n' :: 'i' :: 'z' :: 'e' :: v) = none
    simp only [organ]
    rw [matchCI_cons_eq, matchCI_cons_eq, matchCI_cons_eq]
    have hin : matchCI ['a', 'n']
        ('o' :: 'r' :: 'g' :: 'a' :: 'n' :: 'i' :: 'z' :: 'e' :: v) = none := rfl
    rw [hin]
    cases hb1 : lcEq 'o' a <;> cases hb2 : lcEq 'r' b <;> cases hb3 : lcEq 'g' c <;> rfl
  · show matchCI organ
      (a :: b :: c :: d :: 'o' :: 'r' :: 'g' :: 'a' :: 'n' :: 'i' :: 'z' :: 'e' :: v)
        = none
    simp only [organ]
    rw [matchCI_cons_eq, matchCI_cons_eq, matchCI_cons_eq, matchCI_cons_eq]
    have hin : matchCI ['n']
        ('o' :: 'r' :: 'g' :: 'a' :: 'n' :: 'i' :: 'z' :: 'e' :: v) = none := rfl
    rw [hin]
    cases hb1 : lcEq 'o' a <;> cases hb2 : lcEq 'r' b <;> cases hb3 : lcEq 'g' c <;>
      cases hb4 : lcEq 'a' d <;> rfl
  · simp only [List.length_cons] at h4
    omega

theorem replaceScan_organ_block (rep v : List Char) (prev : Option Char) :
    replaceScan organ rep prev (organizeW ++ v)
      = organizeW ++ replaceScan organ rep (some 'e') v := by
  show replaceScan organ rep prev
      ('o' :: 'r' :: 'g' :: 'a' :: 'n' :: 'i' :: 'z' :: 'e' :: v) = _
  have h0 : matchCI organ ('o' :: 'r' :: 'g' :: 'a' :: 'n' :: 'i' :: 'z' :: 'e' :: v)
      = some (['o', 'r', 'g', 'a', 'n'], 'i' :: 'z' :: 'e' :: v) := rfl
  have hb : (boundary prev (some 'o')
      && boundary (List.getLast? ['o', 'r', 'g', 'a', 'n'])
           (List.head? ('i' :: 'z' :: 'e' :: v))) = false := by
    have hend : boundary (List.getLast? ['o', 'r', 'g', 'a', 'n'])
        (List.head? ('i' :: 'z' :: 'e' :: v)) = false := rfl
    rw [hend, Bool.and_false]
  rw [replaceScan_skip organ rep prev 'o' _ _ _ h0 (by simp) hb]
  rw [replaceScan_nomatch organ rep (some 'o') 'r' _ rfl]
  rw [replaceScan_nomatch organ rep (some 'r') 'g' _ rfl]
  rw [replaceScan_nomatch organ rep (some 'g') 'a' _ rfl]
  rw [replaceScan_nomatch organ rep (some 'a') 'n' _ rfl]
  rw [replaceScan_nomatch organ rep (some 'n') 'i' _ rfl]
  rw [replaceScan_nomatch organ rep (some 'i') 'z' _ rfl]
  rw [replaceScan_nomatch organ rep (some 'z') 'e' _ rfl]
  rfl

theorem organ_scan_decompose :
    ∀ n (u : List Char), u.length ≤ n → ∀ (v rep : List Char) (prev : Option Char),
      ∃ w, replaceScan organ rep prev (u ++ organizeW ++ v)
        = w ++ organizeW ++ replaceScan organ rep (some 'e') v := by
  intro n
  induction n with
  | zero =>
    intro u hu v rep prev
    have hs : u = [] := List.eq_nil_of_length_eq_zero (Nat.le_zero.mp hu)
    subst hs
    exact ⟨[], by simpa using replaceScan_organ_block rep v prev⟩
  | succ n ih =>
    intro u hu v rep prev
    cases u with
    | nil => exact ⟨[], by simpa using replaceScan_organ_block rep v prev⟩
    | cons c u' =>
      have hsplit : (c :: u') ++ organizeW ++ v = c :: (u' ++ organizeW ++ v) := by
        simp
      have hu' : u'.length ≤ n := by
        simp only [List.length_cons] at hu; omega
      cases hm : matchCI organ (c :: (u' ++ organizeW ++ v)) with
      | none =>
        obtain ⟨w', hw⟩ := ih u' hu' v rep (some c)
        refine ⟨c :: w', ?_⟩
        rw [hsplit, replaceScan_nomatch organ rep prev c _ hm, hw]
        simp
      | some pr =>
        obtain ⟨m, r⟩ := pr
        have hne : m ≠ [] := by
          obtain ⟨_, hl⟩ := matchCI_eq organ _ m r hm
          intro hx
          rw [hx] at hl
          simp [organ] at hl
        by_cases hb : (boundary prev (some c) && boundary m.getLast? r.head?) = true
        · have hu5 : 5 ≤ (c :: u').length := by
            by_contra hlt
            push_neg at hlt
            have h4 : (c :: u').length ≤ 4 := by omega
            have h1 : 1 ≤ (c :: u').length := by simp
            have hnone := matchCI_organ_short (c :: u') v h1 h4
            rw [hsplit] at hnone
            rw [hnone] at hm
            exact absurd hm (by simp)
          obtain ⟨hs, hl⟩ := matchCI_eq organ _ m r hm
          have hl5 : m.length = 5 := by simpa [organ] using hl
          have hs' : (c :: u') ++ (organizeW ++ v) = m ++ r := by
            simpa using hs
          have hlen_take : (List.take 5 (c :: u')).length = 5 := by
            rw [List.length_take]
            omega
          have hchain : m ++ r
              = List.take 5 (c :: u') ++ (List.drop 5 (c :: u') ++ (organizeW ++ v)) := by
            rw [← hs']
            conv_rhs => rw [← List.append_assoc, List.take_append_drop]
          obtain ⟨hmeq, hreq⟩ := List.append_inj hchain (by rw [hl5, hlen_take])
          rw [← List.append_assoc] at hreq
          have hdroplen : (List.drop 5 (c :: u')).length ≤ n := by
            rw [List.length_drop]
            simp only [List.length_cons] at hu ⊢
            omega
          obtain ⟨w', hw⟩ := ih (List.drop 5 (c :: u')) hdroplen v rep m.getLast?
          refine ⟨matchPhraseCase m rep ++ w', ?_⟩
          rw [hsplit, replaceScan_match organ rep prev c _ m r hm hne hb]
          rw [hreq, hw]
          simp
        · have hb' : (boundary prev (some c) && boundary m.getLast? r.head?) = false := by
            simpa using hb
          obtain ⟨w', hw⟩ := ih u' hu' v rep (some c)
          refine ⟨c :: w', ?_⟩
          rw [hsplit, replaceScan_skip organ rep prev c _ m r hm hne hb', hw]
          simp

/-- Claim C9: phrase matching is whole-word boundary-aware, so the rule
rewriting `organ` never matches inside the longer word `organize`: for every
text decomposed as `u ++ organize ++ v` and every replacement, the output of
`applyMappings` keeps that `organize` occurrence intact — it is some prefix,
then `organize` verbatim, then the scan of the remainder `v` (continued with
the correct preceding character). -/
theorem organ_rule_never_touches_organize (rep u v : List Char) :
    ∃ w, applyMappings [(organ, rep)] (u ++ organizeW ++ v)
      = w ++ organizeW ++ replaceScan organ rep (some 'e') v :=
  organ_scan_decompose u.length u le_rfl v rep none

/-! ## Theorems about the object walker (claim C5) -/

theorem stripList_congr (t : List Char → List Char) :
    ∀ xs : List JsonValue, (∀ x ∈ xs, stripValue (walkValue t x) = stripValue x) →
      stripList (walkList t xs) = stripList xs := by
  intro xs h
  induction xs with
  | nil => rfl
  | cons x xs ih =>
    simp only [walkList, stripList]
    rw [h x (List.mem_cons_self x xs), ih (fun y hy => h y (List.mem_cons_of_mem x hy))]

theorem stripFields_congr (t : List Char → List Char) :
    ∀ fs : List (List Char × JsonValue),
      (∀ p ∈ fs, stripValue (walkValue t p.2) = stripValue p.2) →
      stripFields (walkFields t fs) = stripFields fs := by
  intro fs h
  induction fs with
  | nil => rfl
  | cons p fs ih =>
    obtain ⟨k, v⟩ := p
    simp only [walkFields, stripFields]
    rw [h (k, v) (List.mem_cons_self _ _), ih (fun q hq => h q (List.mem_cons_of_mem _ hq))]

theorem strip_walk_aux (t : List Char → List Char) :
    ∀ n (v : JsonValue), sizeOf v ≤ n → stripValue (walkValue t v) = stripValue v := by
  intro n
  induction n with
  | zero =>
    intro v hv
    cases v <;> simp_all
  | succ n ih =>
    intro v hv
    cases v with
    | str s => rfl
    | num m => rfl
    | bool b => rfl
    | null => rfl
    | arr xs =>
      simp only [walkValue, stripValue]
      rw [stripList_congr t xs]
      intro x hx
      apply ih
      have h1 : sizeOf x < sizeOf xs := List.sizeOf_lt_of_mem hx
      have h2 : sizeOf (JsonValue.arr xs) = 1 + sizeOf xs := by simp
      omega
    | obj fs =>
      simp only [walkValue, stripValue]
      rw [stripFields_congr t fs]
      intro p hp
      apply ih
      have h1 : sizeOf p < sizeOf fs := List.sizeOf_lt_of_mem hp
      have h2 : sizeOf (JsonValue.obj fs) = 1 + sizeOf fs := by simp
      have h3 : sizeOf p = 1 + sizeOf p.1 + sizeOf p.2 := by
        obtain ⟨a, b⟩ := p
        simp
      omega

theorem walkList_length (t : List Char → List Char) :
    ∀ xs : List JsonValue, (walkList t xs).length = xs.length := by
  intro xs
  induction xs with
  | nil => rfl
  | cons x xs ih => simp only [walkList, List.length_cons, ih]

theorem walkFields_keys (t : List Char → List Char) :
    ∀ fs : List (List Char × JsonValue),
      (walkFields t fs).map Prod.fst = fs.map Prod.fst := by
  intro fs
  induction fs with
  | nil => rfl
  | cons p fs ih =>
    obtain ⟨k, v⟩ := p
    simp only [walkFields, List.map_cons, ih]

/-- Claim C5: the recursive walker behind `convertObject` preserves all
structure except string contents.  Stripping string payloads commutes with
the walk, so arrays keep length and element order, objects keep their key
set and key enumeration order with keys never transformed, and every
non-string leaf is returned unchanged; this is stated again explicitly for
array lengths, field keys and the number/boolean/null leaves.  The embedding
is a pure function building a fresh value, which is how `walkAsync` treats
its argument (it never mutates it). -/
theorem convertObject_structural_fidelity (t : List Char → List Char) :
    (∀ v, stripValue (walkValue t v) = stripValue v) ∧
    (∀ xs : List JsonValue, (walkList t xs).length = xs.length) ∧
    (∀ fs : List (List Char × JsonValue),
      (walkFields t fs).map Prod.fst = fs.map Prod.fst) ∧
    (∀ n : Int, walkValue t (JsonValue.num n) = JsonValue.num n) ∧
    (∀ b : Bool, walkValue t (JsonValue.bool b) = JsonValue.bool b) ∧
    walkValue t JsonValue.null = JsonValue.null :=
  ⟨fun v => strip_walk_aux t (sizeOf v) v le_rfl,
   walkList_length t, walkFields_keys t,
   fun _ => rfl, fun _ => rfl, rfl⟩

/-! ## Theorems about the persisted corrections table (claim C7) -/

/-- Claim C7: in the persisted-corrections variant, each mutator updates the
in-memory table before persisting — the returned table is the updated one no
matter what the durable write does — and when the write fails the error is
surfaced to the caller rather than swallowed (`saveCorrections` rethrows
after logging). -/
theorem corrections_update_before_persist {ε : Type}
    (persist : List (List Char × List Char) → Except ε Unit)
    (tbl mappings : List (List Char × List Char)) (f t : List Char) (e : ε) :
    ((addCorrection persist tbl f t).1 = setKey tbl f t ∧
      (persist (setKey tbl f t) = Except.error e →
        (addCorrection persist tbl f t).2 = Except.error e)) ∧
    ((addCorrections persist tbl mappings).1 = mergeTable tbl mappings ∧
      (persist (mergeTable tbl mappings) = Except.error e →
        (addCorrections persist tbl mappings).2 = Except.error e)) ∧
    ((removeCorrection persist tbl f).1 = removeKey tbl f ∧
      (persist (removeKey tbl f) = Except.error e →
        (removeCorrection persist tbl f).2 = Except.error e)) :=
  ⟨⟨rfl, fun h => h⟩, ⟨rfl, fun h => h⟩, ⟨rfl, fun h => h⟩⟩

/-- Witness for `corrections_update_before_persist` with a persistence
capability that always fails: the table update is visible and the error is
returned for all three mutators. -/
theorem corrections_update_before_persist_wit :
    (addCorrection (fun _ => Except.error ()) [] ['a'] ['b']).1
        = setKey [] ['a'] ['b'] ∧
    (addCorrection (fun _ => Except.error ()) [] ['a'] ['b']).2 = Except.error () ∧
    (addCorrections (fun _ => Except.error ()) [] []).2 = Except.error () ∧
    (removeCorrection (fun _ => Except.error ()) [] ['a']).2 = Except.error () :=
  ⟨(corrections_update_before_persist (fun _ => Except.error ()) [] [] ['a'] ['b'] ()).1.1,
   (corrections_update_before_persist (fun _ => Except.error ()) [] [] ['a'] ['b'] ()).1.2 rfl,
   (corrections_update_before_persist (fun _ => Except.error ()) [] [] ['a'] ['b'] ()).2.1.2 rfl,
   (corrections_update_before_persist (fun _ => Except.error ()) [] [] ['a'] ['b'] ()).2.2.2 rfl⟩
